import Mathlib

/-!
Shallow embedding of the `inverse_distance_weight` Rust crate
(`src/coord.rs`, `src/idw.rs`, `src/lib.rs`).

The crate is generic over a coordinate type `C : Coord<N>` and a float
type `N : num_traits::Float`.  The embedding mirrors that genericity: the
interpolator is parametric in a coordinate type `C` and a numeric type `N`
(a `Field`, the idealisation of the IEEE float type), the `Coord` trait
method `distance_to` is passed as an explicit function `dist : C → C → N`,
and `Float::powf` as `powf : N → N → N`.  The three concrete `Coord`
implementations of `src/coord.rs` are embedded over `ℝ` (the idealisation
of `f64`/`f32`) as `distance_to_1d`, `distance_to_2d`, `distance_to_3d`.
-/

namespace InverseDistanceWeight

/-- Embeds `impl Coord<$t> for $t` from `src/coord.rs`:
`fn distance_to(&self, rhs: &Self) -> $t { (*rhs - *self).abs() }`. -/
noncomputable def distance_to_1d (self rhs : ℝ) : ℝ :=
  |rhs - self|

/-- Embeds `impl Coord<$t> for ($t, $t)` from `src/coord.rs`:
`dx = rhs.0 - self.0; dy = rhs.1 - self.1; (dx * dx + dy * dy).sqrt()`. -/
noncomputable def distance_to_2d (self rhs : ℝ × ℝ) : ℝ :=
  let dx := rhs.1 - self.1
  let dy := rhs.2 - self.2
  Real.sqrt (dx * dx + dy * dy)

/-- Embeds `impl Coord<$t> for ($t, $t, $t)` from `src/coord.rs`:
`dx, dy, dz` component differences, `(dx*dx + dy*dy + dz*dz).sqrt()`. -/
noncomputable def distance_to_3d (self rhs : ℝ × ℝ × ℝ) : ℝ :=
  let dx := rhs.1 - self.1
  let dy := rhs.2.1 - self.2.1
  let dz := rhs.2.2 - self.2.2
  Real.sqrt (dx * dx + dy * dy + dz * dz)

/-- Embeds `struct IDW<C, N>` from `src/idw.rs`: the points vector, the
values vector, the power parameter and the optional weight-transform
(`weighted_function: Option<Box<dyn Fn(N) -> N>>`). -/
structure IDW (C N : Type) where
  points : List C
  values : List N
  power_parameter : N
  weighted_function : Option (N → N)

/-- Embeds `IDW::new` from `src/idw.rs`.  The Rust function panics when the
points vector is empty, when the values vector is empty, or when the two
vectors differ in length; a panic is embedded as `none`.  On valid input it
stores the inputs with `power_parameter = N::from(2).unwrap()` and no
weighted function. -/
def IDW.new {C N : Type} [Field N] (points : List C) (values : List N) :
    Option (IDW C N) :=
  if points.length = 0 then none
  else if values.length = 0 then none
  else if points.length ≠ values.length then none
  else some { points := points, values := values,
              power_parameter := 2, weighted_function := none }

/-- Embeds `IDW::power` from `src/idw.rs`: sets the power parameter,
returning the modified instance. -/
def IDW.power {C N : Type} (self : IDW C N) (power : N) : IDW C N :=
  { self with power_parameter := power }

/-- Embeds the `IDW::weighted_function` setter from `src/idw.rs` (renamed:
in Lean the structure-field accessor already carries the source name):
stores the transform, returning the modified instance. -/
def IDW.with_weighted_function {C N : Type} (self : IDW C N) (func : N → N) :
    IDW C N :=
  { self with weighted_function := some func }

/-- Embeds the iterator chain at the start of `IDW::evaluate`
(`src/idw.rs` lines 101-117): for each point, in order, compute its
distance to the position; if the distance is zero the whole collect stops
with `Err(index)`; otherwise the weight `1 / distance.powf(power)` is
produced.  `index` threads the `enumerate` counter. -/
def collect_weights {C N : Type} [Field N] [DecidableEq N]
    (dist : C → C → N) (powf : N → N → N) (power_parameter : N)
    (position : C) : List C → Nat → Except Nat (List N)
  | [], _ => Except.ok []
  | point :: rest, index =>
    let distance := dist point position
    if distance = 0 then Except.error index
    else
      match collect_weights dist powf power_parameter position rest (index + 1) with
      | Except.ok weights => Except.ok (1 / powf distance power_parameter :: weights)
      | Except.error i => Except.error i

/-- Embeds the nested `fn normalize_weights` of `src/idw.rs` (lines
138-145): fold the weights to a sum, then divide every weight by the sum. -/
def normalize_weights {N : Type} [Field N] (weights : List N) : List N :=
  let weight_sum := weights.foldl (fun acc w => acc + w) 0
  weights.map (fun w => w / weight_sum)

/-- Embeds `IDW::evaluate` from `src/idw.rs` (lines 100-146).  On
`Ok(weights)` the weights are normalized, the optional weighted function is
applied pointwise and the result renormalized, and the final weights are
zipped with the values and folded into the blend.  On `Err(index)` the Rust
code returns `self.values[index]`, embedded as `getD index 0` (the
in-bounds theorem below shows the default is never taken). -/
def IDW.evaluate {C N : Type} [Field N] [DecidableEq N]
    (dist : C → C → N) (powf : N → N → N) (self : IDW C N) (position : C) : N :=
  match collect_weights dist powf self.power_parameter position self.points 0 with
  | Except.ok weights =>
    let normalized_weights := normalize_weights weights
    let final_weights :=
      match self.weighted_function with
      | some func => normalize_weights (normalized_weights.map func)
      | none => normalized_weights
    (final_weights.zip self.values).foldl (fun acc wv => acc + wv.1 * wv.2) 0
  | Except.error index => self.values.getD index 0

/-- `evaluate` takes the receiver by shared reference (`&self`); a method
call is embedded as returning the result together with the receiver, which
the call cannot replace. -/
def IDW.evaluate_call {C N : Type} [Field N] [DecidableEq N]
    (dist : C → C → N) (powf : N → N → N) (self : IDW C N) (position : C) :
    N × IDW C N :=
  (self.evaluate dist powf position, self)

/-- Modelled from the spec words for the non-short-circuit path of
`evaluate` (steps 1, 3, 4, 5, 6 of section 4.4): distances, raw weights
`1 / dᵢ^power`, normalization by the sum, the optional pointwise transform
followed by a renormalization, and the blend `Σ wᵢ · valueᵢ`.  Used only to
compare against `IDW.evaluate`. -/
def spec_blend {C N : Type} [Field N]
    (dist : C → C → N) (powf : N → N → N) (self : IDW C N) (position : C) : N :=
  let distances := self.points.map (fun point => dist point position)
  let raw := distances.map (fun d => 1 / powf d self.power_parameter)
  let normalized := raw.map (fun w => w / raw.sum)
  let final :=
    match self.weighted_function with
    | some func =>
      let transformed := normalized.map func
      transformed.map (fun w => w / transformed.sum)
    | none => normalized
  ((final.zip self.values).map (fun wv => wv.1 * wv.2)).sum

section Lemmas

variable {C N : Type}

/-- Folding addition from an accumulator equals the accumulator plus the sum. -/
theorem foldl_add_eq_sum [Field N] (l : List N) (a : N) :
    l.foldl (fun acc w => acc + w) a = a + l.sum := by
  induction l generalizing a with
  | nil => simp
  | cons b t ih => rw [List.foldl_cons, ih, List.sum_cons, add_assoc]

/-- Folding the blend step from an accumulator equals the accumulator plus
the sum of the products. -/
theorem foldl_blend_eq_sum [Field N] (l : List (N × N)) (a : N) :
    l.foldl (fun acc wv => acc + wv.1 * wv.2) a
      = a + (l.map (fun wv => wv.1 * wv.2)).sum := by
  induction l generalizing a with
  | nil => simp
  | cons b t ih => rw [List.foldl_cons, ih, List.map_cons, List.sum_cons, add_assoc]

/-- Dividing every element by a constant divides the sum by the constant. -/
theorem sum_map_div [Field N] (l : List N) (c : N) :
    (l.map (fun x => x / c)).sum = l.sum / c := by
  induction l with
  | nil => simp
  | cons b t ih => rw [List.map_cons, List.sum_cons, List.sum_cons, ih, add_div]

/-- `normalize_weights` divides every weight by the list sum. -/
theorem normalize_weights_eq [Field N] (w : List N) :
    normalize_weights w = w.map (fun x => x / w.sum) := by
  simp only [normalize_weights, foldl_add_eq_sum, zero_add]

/-- When the weight sum is nonzero, the normalized weights sum to one. -/
theorem normalize_weights_sum [Field N] (w : List N) (h : w.sum ≠ 0) :
    (normalize_weights w).sum = 1 := by
  rw [normalize_weights_eq, sum_map_div, div_self h]

/-- Normalizing an already-normalized list changes nothing. -/
theorem normalize_weights_idem [Field N] (w : List N) :
    normalize_weights (normalize_weights w) = normalize_weights w := by
  by_cases h : w.sum = 0
  · rw [normalize_weights_eq w, h]
    simp [normalize_weights_eq, List.map_map, Function.comp, div_zero]
  · rw [normalize_weights_eq (normalize_weights w), normalize_weights_sum w h]
    simp [div_one]

/-- When no distance is zero, the collect succeeds with the mapped weights. -/
theorem collect_weights_ok [Field N] [DecidableEq N]
    (dist : C → C → N) (powf : N → N → N) (pp : N) (position : C)
    (pts : List C) (i : Nat) (h : ∀ p ∈ pts, dist p position ≠ 0) :
    collect_weights dist powf pp position pts i
      = Except.ok (pts.map (fun p => 1 / powf (dist p position) pp)) := by
  induction pts generalizing i with
  | nil => rfl
  | cons p t ih =>
    rw [collect_weights]
    simp only [List.map_cons]
    rw [if_neg (h p (List.mem_cons_self p t)),
        ih (i + 1) (fun q hq => h q (List.mem_cons_of_mem p hq))]

/-- When index `k` is the first zero-distance index, the collect stops with
error `i + k` (where `i` is the enumerate offset). -/
theorem collect_weights_error_first [Field N] [DecidableEq N]
    (dist : C → C → N) (powf : N → N → N) (pp : N) (position : C)
    (pts : List C) (i k : Nat) (hk : k < pts.length)
    (hzero : dist (pts.get ⟨k, hk⟩) position = 0)
    (hfirst : ∀ m (hm : m < pts.length), m < k → dist (pts.get ⟨m, hm⟩) position ≠ 0) :
    collect_weights dist powf pp position pts i = Except.error (i + k) := by
  induction pts generalizing i k with
  | nil => exact absurd hk (Nat.not_lt_zero k)
  | cons p t ih =>
    rw [collect_weights]
    cases k with
    | zero =>
      have hz : dist p position = 0 := hzero
      rw [if_pos hz]
      simp
    | succ k =>
      have hne : dist p position ≠ 0 := by
        have := hfirst 0 (Nat.succ_pos t.length) (Nat.succ_pos k)
        exact this
      rw [if_neg hne]
      have hk' : k < t.length := Nat.lt_of_succ_lt_succ hk
      have hz' : dist (t.get ⟨k, hk'⟩) position = 0 := hzero
      have hf' : ∀ m (hm : m < t.length), m < k → dist (t.get ⟨m, hm⟩) position ≠ 0 := by
        intro m hm hmk
        exact hfirst (m + 1) (Nat.succ_lt_succ hm) (Nat.succ_lt_succ hmk)
      rw [ih (i + 1) k hk' hz' hf']
      have : i + 1 + k = i + (k + 1) := by omega
      rw [this]

/-- A collect error index is bounded by the offset plus the list length. -/
theorem collect_weights_error_lt [Field N] [DecidableEq N]
    (dist : C → C → N) (powf : N → N → N) (pp : N) (position : C)
    (pts : List C) (i j : Nat)
    (h : collect_weights dist powf pp position pts i = Except.error j) :
    j < i + pts.length := by
  induction pts generalizing i with
  | nil => exact absurd h (by rw [collect_weights]; intro hc; cases hc)
  | cons p t ih =>
    rw [collect_weights] at h
    by_cases hd : dist p position = 0
    · rw [if_pos hd] at h
      cases h
      simp
    · rw [if_neg hd] at h
      cases hrec : collect_weights dist powf pp position t (i + 1) with
      | ok ws => rw [hrec] at h; cases h
      | error j2 =>
        rw [hrec] at h
        cases h
        have := ih (i + 1) hrec
        simp only [List.length_cons]
        omega

end Lemmas

section Claims

variable {C N : Type}

/-- C5: for every pair of coordinates of the same shape, `distance_to` is
symmetric, is zero on equal arguments, and is non-negative: `|a − b|` in
1D, the Euclidean norm of the component differences in 2D and 3D. -/
theorem c5_distance_props :
    (∀ a b : ℝ, distance_to_1d a b = distance_to_1d b a
      ∧ distance_to_1d a a = 0 ∧ 0 ≤ distance_to_1d a b)
    ∧ (∀ a b : ℝ × ℝ, distance_to_2d a b = distance_to_2d b a
      ∧ distance_to_2d a a = 0 ∧ 0 ≤ distance_to_2d a b)
    ∧ (∀ a b : ℝ × ℝ × ℝ, distance_to_3d a b = distance_to_3d b a
      ∧ distance_to_3d a a = 0 ∧ 0 ≤ distance_to_3d a b) := by
  refine ⟨fun a b => ⟨?_, ?_, ?_⟩, fun a b => ⟨?_, ?_, ?_⟩, fun a b => ⟨?_, ?_, ?_⟩⟩
  · simp only [distance_to_1d]
    exact abs_sub_comm b a
  · simp [distance_to_1d]
  · simp only [distance_to_1d]
    exact abs_nonneg _
  · simp only [distance_to_2d]
    have h : (b.1 - a.1) * (b.1 - a.1) + (b.2 - a.2) * (b.2 - a.2)
        = (a.1 - b.1) * (a.1 - b.1) + (a.2 - b.2) * (a.2 - b.2) := by ring
    rw [h]
  · simp [distance_to_2d]
  · simp only [distance_to_2d]
    exact Real.sqrt_nonneg _
  · simp only [distance_to_3d]
    have h : (b.1 - a.1) * (b.1 - a.1) + (b.2.1 - a.2.1) * (b.2.1 - a.2.1)
          + (b.2.2 - a.2.2) * (b.2.2 - a.2.2)
        = (a.1 - b.1) * (a.1 - b.1) + (a.2.1 - b.2.1) * (a.2.1 - b.2.1)
          + (a.2.2 - b.2.2) * (a.2.2 - b.2.2) := by ring
    rw [h]
  · simp [distance_to_3d]
  · simp only [distance_to_3d]
    exact Real.sqrt_nonneg _

/-- C7: `power p` replaces only the power parameter (with the given `p`,
unvalidated and arbitrary) and `with_weighted_function f` replaces only the
transform; every other field is untouched by either setter. -/
theorem c7_setters_frame (idw : IDW C N) (p : N) (f : N → N) :
    (idw.power p).points = idw.points
    ∧ (idw.power p).values = idw.values
    ∧ (idw.power p).power_parameter = p
    ∧ (idw.power p).weighted_function = idw.weighted_function
    ∧ (idw.with_weighted_function f).points = idw.points
    ∧ (idw.with_weighted_function f).values = idw.values
    ∧ (idw.with_weighted_function f).power_parameter = idw.power_parameter
    ∧ (idw.with_weighted_function f).weighted_function = some f :=
  ⟨rfl, rfl, rfl, rfl, rfl, rfl, rfl, rfl⟩

/-- C2: `new` fails exactly when the points are empty, the values are
empty, or the lengths differ; on valid input it stores exactly the given
points and values with power parameter 2 and no weighted function. -/
theorem c2_new_validation [Field N] (points : List C) (values : List N) :
    (IDW.new points values = none
      ↔ points = [] ∨ values = [] ∨ points.length ≠ values.length)
    ∧ (points ≠ [] → values ≠ [] → points.length = values.length →
        IDW.new points values
          = some { points := points, values := values,
                   power_parameter := 2, weighted_function := none }) := by
  constructor
  · simp only [IDW.new]
    split_ifs with h1 h2 h3
    · simp only [true_iff]
      exact Or.inl (List.length_eq_zero.mp h1)
    · simp only [true_iff]
      exact Or.inr (Or.inl (List.length_eq_zero.mp h2))
    · simp only [true_iff]
      exact Or.inr (Or.inr h3)
    · simp only [false_iff]
      push_neg
      refine ⟨?_, ?_, not_not.mp h3⟩
      · intro hp; exact h1 (by simp [hp])
      · intro hv; exact h2 (by simp [hv])
  · intro hp hv hl
    simp only [IDW.new]
    rw [if_neg (fun h => hp (List.length_eq_zero.mp h)),
        if_neg (fun h => hv (List.length_eq_zero.mp h)),
        if_neg (not_not.mpr hl)]

/-- Witness for C2 at a concrete valid input. -/
theorem c2_new_validation_witness :
    IDW.new [(0 : ℚ)] [(5 : ℚ)]
      = some { points := [(0 : ℚ)], values := [(5 : ℚ)],
               power_parameter := 2, weighted_function := none } :=
  (c2_new_validation [(0 : ℚ)] [(5 : ℚ)]).2 (by decide) (by decide) (by decide)

/-- C4: whenever the weight collection succeeds (no zero distance) and the
relevant sums are nonzero, the weights sum to one after the first
normalization, and also after the second normalization applied to the
transformed weights for any configured transform. -/
theorem c4_weights_sum_one [Field N] [DecidableEq N]
    (dist : C → C → N) (powf : N → N → N) (pp : N) (position : C)
    (pts : List C) (weights : List N)
    (_hok : collect_weights dist powf pp position pts 0 = Except.ok weights)
    (hsum : weights.sum ≠ 0) :
    (normalize_weights weights).sum = 1
    ∧ ∀ func : N → N, ((normalize_weights weights).map func).sum ≠ 0 →
        (normalize_weights ((normalize_weights weights).map func)).sum = 1 :=
  ⟨normalize_weights_sum weights hsum,
   fun _ hf => normalize_weights_sum _ hf⟩

/-- Witness for C4 at a concrete input with two samples. -/
theorem c4_weights_sum_one_witness :
    (normalize_weights [(1 : ℚ), 1]).sum = 1
    ∧ ∀ func : ℚ → ℚ, ((normalize_weights [(1 : ℚ), 1]).map func).sum ≠ 0 →
        (normalize_weights ((normalize_weights [(1 : ℚ), 1]).map func)).sum = 1 :=
  c4_weights_sum_one (fun a b => b - a) (fun _ _ => (1 : ℚ)) 2 (0 : ℚ)
    [(1 : ℚ), 2] [(1 : ℚ), 1] (by norm_num [collect_weights]) (by norm_num)

/-- C6: installing the identity transform via the setter gives the same
evaluation result as leaving the transform unconfigured, for every sample
set, power, query position, distance function and power function. -/
theorem c6_identity_transform [Field N] [DecidableEq N]
    (dist : C → C → N) (powf : N → N → N)
    (points : List C) (values : List N) (pp : N) (position : C) :
    ((IDW.mk points values pp none).with_weighted_function
        (fun w => w)).evaluate dist powf position
      = (IDW.mk points values pp none).evaluate dist powf position := by
  simp only [IDW.evaluate, IDW.with_weighted_function]
  cases collect_weights dist powf pp position points 0 with
  | ok weights =>
    simp only [List.map_id_fun, id]
    rw [show (normalize_weights weights).map (fun w => w)
          = normalize_weights weights from List.map_id _,
        normalize_weights_idem]
  | error index => rfl

/-- C1: if sample `i` is the first one (in sample order) whose distance to
the query position is exactly zero, `evaluate` returns exactly `valueᵢ`,
with no blending, whatever the power parameter and the configured
transform are.  In particular `evaluate pointᵢ = valueᵢ` when no earlier
sample coincides with `pointᵢ`. -/
theorem c1_exact_match_short_circuit [Field N] [DecidableEq N]
    (dist : C → C → N) (powf : N → N → N) (idw : IDW C N) (position : C)
    (i : Nat) (hi : i < idw.points.length) (hiv : i < idw.values.length)
    (hzero : dist (idw.points.get ⟨i, hi⟩) position = 0)
    (hfirst : ∀ j (hj : j < idw.points.length), j < i →
        dist (idw.points.get ⟨j, hj⟩) position ≠ 0) :
    idw.evaluate dist powf position = idw.values.get ⟨i, hiv⟩ := by
  rw [IDW.evaluate,
      collect_weights_error_first dist powf idw.power_parameter position
        idw.points 0 i hi hzero hfirst]
  simp only [Nat.zero_add]
  exact List.getD_eq_getElem idw.values 0 hiv

/-- Witness for C1: two samples, the query position coincides with the
second sample (index 1) and with no earlier one. -/
theorem c1_exact_match_short_circuit_witness :
    (IDW.mk [(1 : ℚ), 2] [(3 : ℚ), 4] 2
        (some (fun _ => 0))).evaluate (fun a b => b - a) (fun a _ => a) 2
      = ([(3 : ℚ), 4].get ⟨1, by decide⟩) :=
  c1_exact_match_short_circuit (fun a b => b - a) (fun a _ => a)
    (IDW.mk [(1 : ℚ), 2] [(3 : ℚ), 4] 2 (some (fun _ => 0))) 2
    1 (by decide) (by decide) (by show (2 : ℚ) - 2 = 0; norm_num)
    (by
      intro j hj hj1
      have hj0 : j = 0 := Nat.lt_one_iff.mp hj1
      subst hj0
      show (2 : ℚ) - 1 ≠ 0
      norm_num)

/-- C3: at a query position where every sample distance is nonzero,
`evaluate` agrees with the spec formula: raw weights `1 / dᵢ^power`,
normalization by the sum, the optional pointwise transform followed by a
renormalization, and the blend `Σ wᵢ · valueᵢ`. -/
theorem c3_evaluate_matches_spec [Field N] [DecidableEq N]
    (dist : C → C → N) (powf : N → N → N) (idw : IDW C N) (position : C)
    (h : ∀ p ∈ idw.points, dist p position ≠ 0) :
    idw.evaluate dist powf position = spec_blend dist powf idw position := by
  obtain ⟨pts, vals, pp, wf⟩ := idw
  cases wf with
  | none =>
    simp only [IDW.evaluate, spec_blend,
      collect_weights_ok dist powf pp position pts 0 h,
      foldl_blend_eq_sum, zero_add, normalize_weights_eq,
      List.map_map, Function.comp_def]
  | some func =>
    simp only [IDW.evaluate, spec_blend,
      collect_weights_ok dist powf pp position pts 0 h,
      foldl_blend_eq_sum, zero_add, normalize_weights_eq,
      List.map_map, Function.comp_def]

/-- C8: a call to `evaluate` leaves the receiver untouched (it is taken by
shared reference) and is deterministic: equal positions on the same
interpolator state give equal results. -/
theorem c8_evaluate_pure [Field N] [DecidableEq N]
    (dist : C → C → N) (powf : N → N → N) (idw : IDW C N) (pos1 pos2 : C)
    (h : pos1 = pos2) :
    (idw.evaluate_call dist powf pos1).2 = idw
    ∧ (idw.evaluate_call dist powf pos1).1
        = (idw.evaluate_call dist powf pos2).1 :=
  ⟨rfl, by rw [h]⟩

/-- Witness for C8 at a concrete interpolator and equal positions. -/
theorem c8_evaluate_pure_witness :
    ((IDW.mk [(1 : ℚ)] [(2 : ℚ)] 2 none).evaluate_call
        (fun a b => b - a) (fun a _ => a) 0).2 = IDW.mk [(1 : ℚ)] [(2 : ℚ)] 2 none
    ∧ ((IDW.mk [(1 : ℚ)] [(2 : ℚ)] 2 none).evaluate_call
        (fun a b => b - a) (fun a _ => a) 0).1
      = ((IDW.mk [(1 : ℚ)] [(2 : ℚ)] 2 none).evaluate_call
        (fun a b => b - a) (fun a _ => a) 0).1 :=
  c8_evaluate_pure (fun a b => b - a) (fun a _ => a)
    (IDW.mk [(1 : ℚ)] [(2 : ℚ)] 2 none) 0 0 rfl

/-- C9: a successfully constructed interpolator has equally long, non-empty
points and values; both setters preserve this; and the index produced by
the exact-match branch of `evaluate` is always in bounds for the values
list, so the indexing never goes out of bounds. -/
theorem c9_invariant_safety [Field N] [DecidableEq N]
    (points : List C) (values : List N) (idw : IDW C N)
    (h : IDW.new points values = some idw) :
    (idw.points.length = idw.values.length ∧ 1 ≤ idw.values.length)
    ∧ (∀ p : N, (idw.power p).points.length = (idw.power p).values.length
        ∧ 1 ≤ (idw.power p).values.length)
    ∧ (∀ f : N → N, (idw.with_weighted_function f).points.length
          = (idw.with_weighted_function f).values.length
        ∧ 1 ≤ (idw.with_weighted_function f).values.length)
    ∧ (∀ (dist : C → C → N) (powf : N → N → N) (position : C) (i : Nat),
        collect_weights dist powf idw.power_parameter position idw.points 0
          = Except.error i → i < idw.values.length) := by
  simp only [IDW.new] at h
  split_ifs at h with h1 h2 h3
  have hidw := Option.some.inj h
  subst hidw
  have hlen : points.length = values.length := not_not.mp h3
  have hpos : 1 ≤ values.length := Nat.pos_of_ne_zero h2
  refine ⟨⟨hlen, hpos⟩, fun p => ⟨hlen, hpos⟩, fun f => ⟨hlen, hpos⟩, ?_⟩
  intro dist powf position i hc
  have hb := collect_weights_error_lt dist powf _ position points 0 i hc
  rw [Nat.zero_add, hlen] at hb
  exact hb

/-- Witness for C9 at a concrete constructed interpolator. -/
theorem c9_invariant_safety_witness :
    (IDW.mk [(1 : ℚ)] [(2 : ℚ)] 2 none).points.length
        = (IDW.mk [(1 : ℚ)] [(2 : ℚ)] 2 none).values.length
    ∧ 1 ≤ (IDW.mk [(1 : ℚ)] [(2 : ℚ)] 2 none).values.length :=
  (c9_invariant_safety [(1 : ℚ)] [(2 : ℚ)]
    (IDW.mk [(1 : ℚ)] [(2 : ℚ)] 2 none) rfl).1

/-- C10 counterexample: a single-sample interpolator with the constant-zero
transform installed.  The query position has nonzero (finite) distance and
nonzero raw weight, yet `evaluate` returns 0, not the sample value 5: the
transform turns the normalized weight 1 into 0, and the renormalization
divides zero by zero.  (In the Rust code the same input produces `NaN`.) -/
theorem c10_counterexample :
    ((1 : ℚ) - 0 ≠ 0)
    ∧ ((1 : ℚ) / (((1 : ℚ) - 0) * ((1 : ℚ) - 0)) ≠ 0)
    ∧ (IDW.mk [(0 : ℚ)] [(5 : ℚ)] 2 (some (fun _ => 0))).evaluate
        (fun a b => b - a) (fun a _ => a * a) 1 = 0
    ∧ (0 : ℚ) ≠ 5 := by
  refine ⟨by norm_num, by norm_num, ?_, by norm_num⟩
  norm_num [IDW.evaluate, collect_weights, normalize_weights]

/-- C10 (amended): a single-sample interpolator returns its sample value at
every query position with nonzero raw weight, provided additionally that
the configured transform (if any) sends the normalized weight 1 to a
nonzero value; with a zero distance the short-circuit also returns the
sample value. -/
theorem c10_single_sample [Field N] [DecidableEq N]
    (dist : C → C → N) (powf : N → N → N) (p0 : C) (v0 pp : N)
    (wf : Option (N → N)) (position : C)
    (hraw : dist p0 position ≠ 0 → 1 / powf (dist p0 position) pp ≠ 0)
    (htr : ∀ f, wf = some f → f 1 ≠ 0) :
    (IDW.mk [p0] [v0] pp wf).evaluate dist powf position = v0 := by
  by_cases hd : dist p0 position = 0
  · simp [IDW.evaluate, collect_weights, if_pos hd]
  · have hP : powf (dist p0 position) pp ≠ 0 := by
      intro h0
      exact hraw hd (by rw [h0, div_zero])
    cases wf with
    | none =>
      simp only [IDW.evaluate, collect_weights, if_neg hd]
      simp [normalize_weights, inv_mul_cancel₀ hP]
    | some func =>
      have hf : func 1 ≠ 0 := htr func rfl
      simp only [IDW.evaluate, collect_weights, if_neg hd]
      simp [normalize_weights, inv_mul_cancel₀ hP, div_self hf]

/-- Witness for C10 (amended) at a concrete single-sample interpolator with
no transform configured. -/
theorem c10_single_sample_witness :
    (IDW.mk [(0 : ℚ)] [(5 : ℚ)] 2 none).evaluate
        (fun a b => b - a) (fun a _ => a * a) 1 = 5 :=
  c10_single_sample (fun a b => b - a) (fun a _ => a * a) 0 5 2 none 1
    (by intro _; norm_num) (fun f h => by cases h)

/-- Witness for C3 at a concrete input where both distances are nonzero. -/
theorem c3_evaluate_matches_spec_witness :
    (IDW.mk [(1 : ℚ), 2] [(3 : ℚ), 4] 2 none).evaluate
        (fun a b => b - a) (fun a _ => a) 0
      = spec_blend (fun a b => b - a) (fun a _ => a)
          (IDW.mk [(1 : ℚ), 2] [(3 : ℚ), 4] 2 none) 0 :=
  c3_evaluate_matches_spec (fun a b => b - a) (fun a _ => a)
    (IDW.mk [(1 : ℚ), 2] [(3 : ℚ), 4] 2 none) 0
    (by intro p hp; fin_cases hp <;> norm_num)

end Claims

end InverseDistanceWeight
